import Mathlib

/-!
Verification of the histogram-bucket fidelity simulator of
node-triton-metrics (examples/buckets-experiments).

The JavaScript sources are shallowly embedded: JS numbers become exact
rationals (ℚ), the dynamic bucket→count object becomes a list of counts
parallel to the ascending boundary list (the boundary's index is its
identity), and fallible paths (assertion failures, non-finite float
results) become Option.  Every definition is translated from the source
files `error-estimator.js` and `buckets.js` (the latter also contains the
rate-experiment script `error-estimator-rate.js`); the source function
names are kept.
-/

/-- State of a `DataBox` (error-estimator.js lines 32-51): the raw data
seen so far, the cumulative count per bucket boundary (parallel to the
boundary list), the `+Inf` total count and the running sum.  The JS
`sorted` caching flag is omitted: `getRealQuantile` here always sorts,
which is observationally equal since sorting is idempotent. -/
structure DataBox where
  data : List ℚ
  counts : List ℚ
  infCount : ℚ
  sum : ℚ
deriving Repr, DecidableEq

/-- A fresh `DataBox` for a boundary list: every bucket count starts at 0
(error-estimator.js lines 41-50). -/
def mkDataBox (buckets : List ℚ) : DataBox :=
  { data := [], counts := buckets.map (fun _ => 0), infCount := 0, sum := 0 }

/-- Embeds `DataBox.prototype.addDatum` (error-estimator.js lines 53-69):
append the value to the raw data, increment every bucket whose boundary is
`≥ value`, increment `+Inf` and add to `sum`. -/
def addDatum (buckets : List ℚ) (box : DataBox) (value : ℚ) : DataBox :=
  { data := box.data ++ [value]
    counts := List.zipWith (fun b c => if value ≤ b then c + 1 else c) buckets box.counts
    infCount := box.infCount + 1
    sum := box.sum + value }

/-- Embeds the rank-search loop of `getPrometheusQuantile`
(error-estimator.js lines 113-118): the index of the first entry of the
cumulative-count list that is `≥ rank`, `none` when no entry qualifies. -/
def findBucketIdx (rank : ℚ) : List ℚ → Option ℕ
  | [] => none
  | c :: cs => if rank ≤ c then some 0 else (findBucketIdx rank cs).map (· + 1)

/-- Embeds the branch of `getPrometheusQuantile` taken once a bucket index
`b` has been found (error-estimator.js lines 124-153).  When the
in-bucket count is zero the JS division `rank/count` produces a
non-finite float (`NaN` or `±Infinity`) which propagates to the result;
that non-finite outcome is modelled as `none`.  Otherwise the arithmetic
is exact. -/
def interpolateBucket (rank : ℚ) (buckets counts : List ℚ) (b : ℕ) : Option ℚ :=
  if b = 0 ∧ buckets.getD 0 0 ≤ 0 then
    some (buckets.getD 0 0)
  else
    let bucketStart : ℚ := if b = 0 then 0 else buckets.getD (b - 1) 0
    let bucketEnd : ℚ := buckets.getD b 0
    let prevCount : ℚ := if b = 0 then 0 else counts.getD (b - 1) 0
    let countInBucket : ℚ := counts.getD b 0 - prevCount
    let localRank : ℚ := rank - prevCount
    if countInBucket = 0 then none
    else some (bucketStart + (bucketEnd - bucketStart) * (localRank / countInBucket))

/-- Embeds `getPrometheusQuantile` (error-estimator.js lines 96-154,
identical copy in buckets.js lines 212-268): `rank = count(+Inf) * q`;
when no bucket's cumulative count reaches the rank, return the largest
boundary, otherwise interpolate inside the found bucket. -/
def getPrometheusQuantile (q : ℚ) (buckets counts : List ℚ) (infCount : ℚ) : Option ℚ :=
  match findBucketIdx (infCount * q) counts with
  | none => some (buckets.getD (buckets.length - 1) 0)
  | some b => interpolateBucket (infCount * q) buckets counts b

/-- Embeds `getRealQuantile` (error-estimator.js lines 71-93, buckets.js
lines 188-209): sort the raw data ascending, take the entry at index
`max(0, floor(q * n) - 1)`. -/
def getRealQuantile (q : ℚ) (data : List ℚ) : ℚ :=
  let sorted := List.insertionSort (· ≤ ·) data
  sorted.getD (max (Int.floor (q * (data.length : ℚ)) - 1) 0).toNat 0

/-- Embeds the error formula of `getResult` (error-estimator.js line 201,
buckets.js line 519): the relative deviation of the larger of the two
quantile values from the smaller one, in percent. -/
def errorPercent (prometheus actual : ℚ) : ℚ :=
  |1 - max prometheus actual / min prometheus actual| * 100

/-- The fixed quantile levels evaluated per chunk (error-estimator.js
line 182). -/
def quantileLevels : List ℚ :=
  [999/1000, 99/100, 98/100, 95/100, 75/100, 50/100, 25/100]

/-- Embeds `getRealQuantile` together with its `assert-plus` guards
(error-estimator.js lines 74-76): a quantile request on an empty
population, or with `q` outside `(0, 1)`, throws, modelled as `none`. -/
def getRealQuantileChecked (q : ℚ) (data : List ℚ) : Option ℚ :=
  if 0 < data.length ∧ 0 < q ∧ q < 1 then some (getRealQuantile q data) else none

/-- Embeds `getPrometheusQuantile` together with its `assert-plus` guards
(error-estimator.js lines 107-109): `q` outside `(0, 1)` or fewer than
two buckets throws (`none`); otherwise the optional result is the one of
`getPrometheusQuantile` (whose own `none` stands for a non-finite float,
which JS returns without throwing). -/
def getPrometheusQuantileChecked (q : ℚ) (buckets counts : List ℚ) (infCount : ℚ) :
    Option (Option ℚ) :=
  if 0 < q ∧ q < 1 ∧ 2 ≤ buckets.length then
    some (getPrometheusQuantile q buckets counts infCount)
  else none

/-- The per-quantile loop of `getResult` (error-estimator.js lines
193-207): for each level compute the actual and the bucket-estimated
quantile; a thrown assertion anywhere aborts (`none`). -/
def getResultGo (buckets : List ℚ) (box : DataBox) : List ℚ → Option (List (ℚ × Option ℚ))
  | [] => some []
  | q :: qs =>
    match getRealQuantileChecked q box.data with
    | none => none
    | some actual =>
      match getPrometheusQuantileChecked q buckets box.counts box.infCount with
      | none => none
      | some prom =>
        match getResultGo buckets box qs with
        | none => none
        | some rest => some ((actual, prom) :: rest)

/-- Embeds `getResult` (error-estimator.js lines 177-211) restricted to
the data it computes (console output dropped). -/
def getResult (buckets : List ℚ) (box : DataBox) : Option (List (ℚ × Option ℚ)) :=
  getResultGo buckets box quantileLevels

/-- Embeds the chunked main loop of error-estimator.js: the `line`
handler (lines 392-402) adds each value to the current box and processes
the box once it holds at least `chunkSize` values; the `close` handler
(lines 405-409) processes the final box unconditionally.  A thrown
assertion (empty box, bad bucket list) aborts the run (`none`). -/
def processChunks (buckets : List ℚ) (chunkSize : ℕ) :
    List ℚ → DataBox → List (List (ℚ × Option ℚ)) → Option (List (List (ℚ × Option ℚ)))
  | [], box, acc =>
    match getResult buckets box with
    | none => none
    | some r => some (acc ++ [r])
  | v :: rest, box, acc =>
    let box2 := addDatum buckets box v
    if chunkSize ≤ box2.data.length then
      match getResult buckets box2 with
      | none => none
      | some r => processChunks buckets chunkSize rest (mkDataBox buckets) (acc ++ [r])
    else
      processChunks buckets chunkSize rest box2 acc

/-- A whole error-estimator.js run over a list of input values (already
scaled to seconds): chunked processing starting from a fresh box. -/
def runChunked (buckets : List ℚ) (chunkSize : ℕ) (input : List ℚ) :
    Option (List (List (ℚ × Option ℚ))) :=
  processChunks buckets chunkSize input (mkDataBox buckets) []

/-- Sampling interval of the rate experiment, in milliseconds
(buckets.js line 141). -/
def SAMPLE_FREQ : ℚ := 15 * 1000

/-- Range-vector window length of the rate experiment, in milliseconds
(buckets.js line 142). -/
def VECTOR_SELECTOR : ℚ := 300 * 1000

/-- A histogram snapshot as pushed by `_processLine` of the rate
experiment (buckets.js lines 607-611): the chunk-end timestamp (ms), the
cumulative count per boundary and the `+Inf` count.  The raw `values`
field, used only for the exact-quantile comparison, is not needed by the
rate computation modelled here. -/
structure Sample where
  time : ℚ
  counts : List ℚ
  infCount : ℚ
deriving Repr, DecidableEq

/-- Embeds the extrapolation-interval computation of `calculateRates`
(buckets.js lines 457-473): extend the sampled interval towards each
window edge by the actual gap when it is below `1.1 * avgGap`, and by
half an average gap otherwise. -/
def extrapolateToInterval (sampleEnd : ℚ) (samples : List Sample) : ℚ :=
  let first := samples.headD ⟨0, [], 0⟩
  let last := samples.getLastD ⟨0, [], 0⟩
  let rangeStart := sampleEnd - VECTOR_SELECTOR
  let durationToStart := first.time - rangeStart
  let durationToEnd := sampleEnd - last.time
  let sampledInterval := last.time - first.time
  let averageDurationBetweenSamples := sampledInterval / ((samples.length : ℚ) - 1)
  let extrapolationThreshold := averageDurationBetweenSamples * (11/10)
  sampledInterval +
    (if durationToStart < extrapolationThreshold then durationToStart
     else averageDurationBetweenSamples / 2) +
    (if durationToEnd < extrapolationThreshold then durationToEnd
     else averageDurationBetweenSamples / 2)

/-- Embeds `calculateRates` (buckets.js lines 430-490): `none` for fewer
than two samples (the JS returns `{}`); otherwise the per-boundary rates
(parallel to the boundary list) paired with the `+Inf` rate, each
`(lastCount - firstCount) * (extrapolatedInterval / sampledInterval)`
divided by the window length in seconds. -/
def calculateRates (buckets : List ℚ) (sampleEnd : ℚ) (samples : List Sample) :
    Option (List ℚ × ℚ) :=
  if samples.length < 2 then none
  else
    let first := samples.headD ⟨0, [], 0⟩
    let last := samples.getLastD ⟨0, [], 0⟩
    let sampledInterval := last.time - first.time
    let rateOf := fun (lastC firstC : ℚ) =>
      (lastC - firstC) * (extrapolateToInterval sampleEnd samples / sampledInterval) /
        (VECTOR_SELECTOR / 1000)
    some ((List.range buckets.length).map
            (fun i => rateOf (last.counts.getD i 0) (first.counts.getD i 0)),
          rateOf last.infCount first.infCount)

/-- Embeds the snapshot-rotation block of the rate experiment's
`_processLine` handler (buckets.js lines 611-616) together with the
`calculateRates` call of `processSample` (lines 564-582): push the new
snapshot; when the sequence now exceeds the window capacity
(`300000 / SAMPLE_FREQ` snapshots), first `shift()` the oldest snapshot
off and only then compute the rates over the already-shortened sequence.
Returns the retained sequence and the rate vector that `processSample`
computes (`none` when no computation happened). -/
def pushSample (buckets : List ℚ) (samples : List Sample) (s : Sample) :
    List Sample × Option (List ℚ × ℚ) :=
  let samples2 := samples ++ [s]
  if (300000 : ℚ) / SAMPLE_FREQ < (samples2.length : ℚ) then
    let retained := samples2.tail
    (retained, calculateRates buckets s.time retained)
  else
    (samples2, none)

/-- Invariant of a `DataBox` maintained by `addDatum`: the count list is
parallel to the boundary list, cumulative counts are monotone in the
boundary index, and each is bounded by the `+Inf` count. -/
def BoxInv (buckets : List ℚ) (box : DataBox) : Prop :=
  box.counts.length = buckets.length ∧
  (∀ i j, i ≤ j → j < buckets.length → box.counts.getD i 0 ≤ box.counts.getD j 0) ∧
  (∀ j, j < buckets.length → box.counts.getD j 0 ≤ box.infCount)

/-- Twenty snapshots used to exercise the eviction path. -/
def sampleWindow20 : List Sample :=
  (List.range 20).map (fun (i : ℕ) => { time := (i : ℚ), counts := [], infCount := 0 })

/-- The snapshot whose push overflows the twenty-snapshot window. -/
def overflowSample : Sample :=
  { time := 20, counts := [], infCount := 0 }

/-! Helper lemmas about list indexing and the rank search. -/

/-- Strictly ascending lists are strictly increasing under `getD` indexing. -/
theorem pairwise_lt_getD {l : List ℚ} (h : List.Pairwise (· < ·) l) {i j : ℕ}
    (hij : i < j) (hj : j < l.length) : l.getD i 0 < l.getD j 0 := by
  have hi : i < l.length := lt_trans hij hj
  rw [List.getD_eq_getElem l 0 hi, List.getD_eq_getElem l 0 hj]
  exact List.pairwise_iff_getElem.mp h i j hi hj hij

/-- Strictly ascending lists are monotone under `getD` indexing. -/
theorem pairwise_le_getD {l : List ℚ} (h : List.Pairwise (· < ·) l) {i j : ℕ}
    (hij : i ≤ j) (hj : j < l.length) : l.getD i 0 ≤ l.getD j 0 := by
  rcases eq_or_lt_of_le hij with rfl | hlt
  · exact le_refl _
  · exact le_of_lt (pairwise_lt_getD h hlt hj)

/-- Soundness of the rank search: a found index is in range, its entry
reaches the rank, and every earlier entry is strictly below the rank. -/
theorem findBucketIdx_some {rank : ℚ} :
    ∀ {cs : List ℚ} {b : ℕ}, findBucketIdx rank cs = some b →
      b < cs.length ∧ rank ≤ cs.getD b 0 ∧ ∀ i, i < b → cs.getD i 0 < rank := by
  intro cs
  induction cs with
  | nil => intro b h; simp [findBucketIdx] at h
  | cons c cs ih =>
    intro b h
    by_cases hc : rank ≤ c
    · rw [findBucketIdx, if_pos hc] at h
      obtain rfl : (0 : ℕ) = b := Option.some_inj.mp h
      exact ⟨Nat.succ_pos _, by simpa using hc, fun i hi => absurd hi (Nat.not_lt_zero i)⟩
    · rw [findBucketIdx, if_neg hc] at h
      obtain ⟨b', hb', rfl⟩ := Option.map_eq_some'.mp h
      obtain ⟨h1, h2, h3⟩ := ih hb'
      refine ⟨Nat.succ_lt_succ h1, by simpa using h2, ?_⟩
      intro i hi
      cases i with
      | zero => simpa using not_le.mp hc
      | succ i' => simpa using h3 i' (Nat.lt_of_succ_lt_succ hi)

/-- Completeness of the rank search: the smallest index whose entry
reaches the rank is found. -/
theorem findBucketIdx_eq_some {rank : ℚ} :
    ∀ {cs : List ℚ} {b : ℕ}, b < cs.length → rank ≤ cs.getD b 0 →
      (∀ i, i < b → cs.getD i 0 < rank) → findBucketIdx rank cs = some b := by
  intro cs
  induction cs with
  | nil => intro b hb; simp at hb
  | cons c cs ih =>
    intro b hb hrank hmin
    cases b with
    | zero => rw [findBucketIdx, if_pos (by simpa using hrank)]
    | succ b' =>
      have hc : ¬rank ≤ c := not_le.mpr (by simpa using hmin 0 (Nat.succ_pos b'))
      rw [findBucketIdx, if_neg hc,
        ih (Nat.lt_of_succ_lt_succ hb) (by simpa using hrank)
          (fun i hi => by simpa using hmin (i + 1) (Nat.succ_lt_succ hi))]
      rfl

/-- C1.  For every quantile level `0 < q < 1`, strictly ascending boundary
list of length at least two and cumulative-count list, whenever `b` is the
smallest index whose cumulative count reaches `rank = count(+Inf) * q`,
`b` is not the degenerate first-bucket case, and the in-bucket count is
non-zero, `getPrometheusQuantile` returns
`bucketStart + (bucketEnd - bucketStart) * (localRank / countInBucket)`
with `bucketStart = 0` for `b = 0` and `boundaries[b-1]` otherwise, and
`countInBucket` and `localRank` reduced by the previous bucket's
cumulative count when `b > 0`. -/
theorem getPrometheusQuantile_interpolation
    (q infCount : ℚ) (buckets counts : List ℚ) (b : ℕ)
    (hq0 : 0 < q) (hq1 : q < 1)
    (hsort : List.Pairwise (· < ·) buckets)
    (hlen2 : 2 ≤ buckets.length)
    (hlen : counts.length = buckets.length)
    (hb : b < counts.length)
    (hrank : infCount * q ≤ counts.getD b 0)
    (hmin : ∀ i, i < b → counts.getD i 0 < infCount * q)
    (hdeg : ¬(b = 0 ∧ buckets.getD 0 0 ≤ 0))
    (hcnt : counts.getD b 0 - (if b = 0 then 0 else counts.getD (b - 1) 0) ≠ 0) :
    getPrometheusQuantile q buckets counts infCount =
      some ((if b = 0 then 0 else buckets.getD (b - 1) 0) +
        (buckets.getD b 0 - (if b = 0 then 0 else buckets.getD (b - 1) 0)) *
        ((infCount * q - (if b = 0 then 0 else counts.getD (b - 1) 0)) /
         (counts.getD b 0 - (if b = 0 then 0 else counts.getD (b - 1) 0)))) := by
  rw [getPrometheusQuantile, findBucketIdx_eq_some hb hrank hmin]
  simp only [interpolateBucket]
  rw [if_neg hdeg, if_neg hcnt]

/-- Witness for C1 at `q = 3/4`, boundaries `[1, 2]`, cumulative counts
`[1, 2]`, total count `2`: the rank `3/2` lands in bucket `b = 1` and the
interpolated value is `1 + (2 - 1) * ((3/2 - 1) / (2 - 1)) = 3/2`. -/
theorem getPrometheusQuantile_interpolation_inst :
    getPrometheusQuantile (3/4) [1, 2] [1, 2] 2 = some (3/2) := by
  have h := getPrometheusQuantile_interpolation (3/4) 2 [1, 2] [1, 2] 1
    (by norm_num) (by norm_num) (by norm_num) (by norm_num) (by norm_num)
    (by norm_num)
    (by norm_num [List.getD])
    (by intro i hi
        interval_cases i
        norm_num [List.getD])
    (by norm_num)
    (by norm_num [List.getD])
  rw [h]
  norm_num [List.getD]

/-- Indexing a `zipWith` under `getD`, for indices inside both lists. -/
theorem zipWith_getD_eq (f : ℚ → ℚ → ℚ) :
    ∀ (as bs : List ℚ) (i : ℕ), i < as.length → i < bs.length →
      (List.zipWith f as bs).getD i 0 = f (as.getD i 0) (bs.getD i 0) := by
  intro as
  induction as with
  | nil => intro bs i hi; simp at hi
  | cons a as ih =>
    intro bs i hi hbs
    cases bs with
    | nil => simp at hbs
    | cons b bs =>
      cases i with
      | zero => simp
      | succ i' =>
        simpa using ih bs i' (Nat.lt_of_succ_lt_succ hi) (Nat.lt_of_succ_lt_succ hbs)

/-- Indexing the all-zero initial count list. -/
theorem getD_map_const_zero : ∀ (l : List ℚ) (i : ℕ), (l.map (fun _ => (0 : ℚ))).getD i 0 = 0 := by
  intro l
  induction l with
  | nil => intro i; simp
  | cons a l ih => intro i; cases i <;> simp [ih]

/-- A fresh `DataBox` satisfies the invariant. -/
theorem boxInv_mkDataBox (buckets : List ℚ) : BoxInv buckets (mkDataBox buckets) := by
  refine ⟨by simp [mkDataBox], ?_, ?_⟩
  · intro i j _ _
    simp [mkDataBox, getD_map_const_zero]
  · intro j _
    simp [mkDataBox, getD_map_const_zero]

/-- One `addDatum` call preserves the invariant, for an ascending
boundary list. -/
theorem boxInv_addDatum {buckets : List ℚ} (hsort : List.Pairwise (· < ·) buckets)
    {box : DataBox} (h : BoxInv buckets box) (v : ℚ) :
    BoxInv buckets (addDatum buckets box v) := by
  obtain ⟨hlen, hmono, hbound⟩ := h
  simp only [BoxInv, addDatum]
  refine ⟨by rw [List.length_zipWith, hlen, min_self], ?_, ?_⟩
  · intro i j hij hj
    have hj' : j < box.counts.length := hlen ▸ hj
    have hi : i < buckets.length := lt_of_le_of_lt hij hj
    have hi' : i < box.counts.length := hlen ▸ hi
    rw [zipWith_getD_eq _ _ _ i hi hi', zipWith_getD_eq _ _ _ j hj hj']
    by_cases hvi : v ≤ buckets.getD i 0
    · have hvj : v ≤ buckets.getD j 0 := le_trans hvi (pairwise_le_getD hsort hij hj)
      rw [if_pos hvi, if_pos hvj]
      exact add_le_add_right (hmono i j hij hj) 1
    · rw [if_neg hvi]
      have hmij := hmono i j hij hj
      split_ifs with hvj
      · linarith
      · exact hmij
  · intro j hj
    have hj' : j < box.counts.length := hlen ▸ hj
    rw [zipWith_getD_eq _ _ _ j hj hj']
    have hbj := hbound j hj
    split_ifs with hvj
    · exact add_le_add_right hbj 1
    · linarith

/-- A whole sequence of `addDatum` calls preserves the invariant. -/
theorem boxInv_foldl {buckets : List ℚ} (hsort : List.Pairwise (· < ·) buckets) :
    ∀ (values : List ℚ) (box : DataBox), BoxInv buckets box →
      BoxInv buckets (values.foldl (addDatum buckets) box) := by
  intro values
  induction values with
  | nil => intro box h; simpa using h
  | cons v vs ih =>
    intro box h
    simpa [List.foldl_cons] using ih _ (boxInv_addDatum hsort h v)

/-- C9.  For every strictly ascending boundary list and every finite
sequence of `addDatum` calls on a freshly created cumulative histogram,
and for every pair of boundary indices `i < j`, the resulting counts
satisfy `count(i) ≤ count(j) ≤ count(+Inf)`. -/
theorem histogram_counts_monotone
    (buckets values : List ℚ) (hsort : List.Pairwise (· < ·) buckets)
    (i j : ℕ) (hij : i < j) (hj : j < buckets.length) :
    (values.foldl (addDatum buckets) (mkDataBox buckets)).counts.getD i 0 ≤
      (values.foldl (addDatum buckets) (mkDataBox buckets)).counts.getD j 0 ∧
    (values.foldl (addDatum buckets) (mkDataBox buckets)).counts.getD j 0 ≤
      (values.foldl (addDatum buckets) (mkDataBox buckets)).infCount := by
  obtain ⟨-, hmono, hbound⟩ := boxInv_foldl hsort values _ (boxInv_mkDataBox buckets)
  exact ⟨hmono i j (le_of_lt hij) hj, hbound j hj⟩

/-- Witness for C9 on boundaries `[1, 2]` and data `[1/2, 3]`. -/
theorem histogram_counts_monotone_inst :
    List.Pairwise (· < ·) [(1 : ℚ), 2] ∧
    (([(1 : ℚ)/2, 3].foldl (addDatum [1, 2]) (mkDataBox [1, 2])).counts.getD 0 0 ≤
      ([(1 : ℚ)/2, 3].foldl (addDatum [1, 2]) (mkDataBox [1, 2])).counts.getD 1 0 ∧
    ([(1 : ℚ)/2, 3].foldl (addDatum [1, 2]) (mkDataBox [1, 2])).counts.getD 1 0 ≤
      ([(1 : ℚ)/2, 3].foldl (addDatum [1, 2]) (mkDataBox [1, 2])).infCount) :=
  ⟨by decide,
    histogram_counts_monotone [1, 2] [1/2, 3] (by decide) 0 1 (by decide) (by decide)⟩

/-- C10.  The error percentage
`|1 - max(estimated, actual) / min(estimated, actual)| * 100` is
symmetric in its two arguments, for strictly positive inputs. -/
theorem errorPercent_symmetric (prometheus actual : ℚ)
    (hp : 0 < prometheus) (ha : 0 < actual) :
    errorPercent prometheus actual = errorPercent actual prometheus := by
  simp only [errorPercent]
  rw [max_comm, min_comm]

/-- Witness for C10 at the pair `(3, 2)`. -/
theorem errorPercent_symmetric_inst :
    0 < (3 : ℚ) ∧ 0 < (2 : ℚ) ∧ errorPercent 3 2 = errorPercent 2 3 :=
  ⟨by norm_num, by norm_num, errorPercent_symmetric 3 2 (by norm_num) (by norm_num)⟩

/-- Reduction of `interpolateBucket` outside the degenerate branches. -/
theorem interpolateBucket_eq (rank : ℚ) (buckets counts : List ℚ) (b : ℕ)
    (hdeg : ¬(b = 0 ∧ buckets.getD 0 0 ≤ 0))
    (hcnt : counts.getD b 0 - (if b = 0 then 0 else counts.getD (b - 1) 0) ≠ 0) :
    interpolateBucket rank buckets counts b =
      some ((if b = 0 then 0 else buckets.getD (b - 1) 0) +
        (buckets.getD b 0 - (if b = 0 then 0 else buckets.getD (b - 1) 0)) *
        ((rank - (if b = 0 then 0 else counts.getD (b - 1) 0)) /
         (counts.getD b 0 - (if b = 0 then 0 else counts.getD (b - 1) 0)))) := by
  simp only [interpolateBucket]
  rw [if_neg hdeg, if_neg hcnt]

/-- C5 (amended).  For every quantile level `0 < q < 1`, strictly
ascending boundary list of length at least two, and count list fed by a
non-empty population (`0 < count(+Inf)`), the bucket quantile estimate is
a finite value lying within `[min(boundaries[0], 0), boundaries[last]]`.
The spec's claimed lower endpoint `boundaries[0]` is wrong: interpolation
inside the first bucket starts from `bucketStart = 0`, so the estimate
can fall strictly below a positive first boundary. -/
theorem getPrometheusQuantile_range_bounds
    (q infCount : ℚ) (buckets counts : List ℚ)
    (hq0 : 0 < q) (hq1 : q < 1)
    (hsort : List.Pairwise (· < ·) buckets)
    (hlen2 : 2 ≤ buckets.length)
    (hlen : counts.length = buckets.length)
    (hinf : 0 < infCount) :
    ∃ r, getPrometheusQuantile q buckets counts infCount = some r ∧
      min (buckets.getD 0 0) 0 ≤ r ∧ r ≤ buckets.getD (buckets.length - 1) 0 := by
  have hrankpos : 0 < infCount * q := mul_pos hinf hq0
  have hlenpos : 0 < buckets.length := lt_of_lt_of_le (by norm_num) hlen2
  have hlast : buckets.length - 1 < buckets.length := Nat.sub_lt hlenpos (by norm_num)
  have h0last : buckets.getD 0 0 ≤ buckets.getD (buckets.length - 1) 0 :=
    pairwise_le_getD hsort (Nat.zero_le _) hlast
  rw [getPrometheusQuantile]
  cases hfind : findBucketIdx (infCount * q) counts with
  | none =>
    exact ⟨_, rfl, le_trans (min_le_left _ _) h0last, le_refl _⟩
  | some b =>
    obtain ⟨hb, hrank, hmin⟩ := findBucketIdx_some hfind
    have hbbk : b < buckets.length := hlen ▸ hb
    by_cases hdeg : b = 0 ∧ buckets.getD 0 0 ≤ 0
    · refine ⟨_, by simp only [interpolateBucket]; rw [if_pos hdeg], ?_, h0last⟩
      rw [min_eq_left hdeg.2]
    · -- facts about the interpolation inputs
      have hprev_lt : (if b = 0 then (0:ℚ) else counts.getD (b - 1) 0) < infCount * q := by
        by_cases hb0 : b = 0
        · simpa [hb0] using hrankpos
        · rw [if_neg hb0]
          exact hmin (b - 1) (Nat.sub_lt (Nat.pos_of_ne_zero hb0) (by norm_num))
      have hcntpos : 0 < counts.getD b 0 - (if b = 0 then (0:ℚ) else counts.getD (b - 1) 0) := by
        have := lt_of_lt_of_le hprev_lt hrank
        linarith
      have hbs_lt_be : (if b = 0 then (0:ℚ) else buckets.getD (b - 1) 0) < buckets.getD b 0 := by
        by_cases hb0 : b = 0
        · rw [if_pos hb0, hb0]
          exact lt_of_not_le (fun hle => hdeg ⟨hb0, hle⟩)
        · rw [if_neg hb0]
          exact pairwise_lt_getD hsort (Nat.sub_lt (Nat.pos_of_ne_zero hb0) (by norm_num)) hbbk
      have hbs_ge : min (buckets.getD 0 0) 0 ≤ (if b = 0 then (0:ℚ) else buckets.getD (b - 1) 0) := by
        by_cases hb0 : b = 0
        · rw [if_pos hb0]
          exact min_le_right _ _
        · rw [if_neg hb0]
          exact le_trans (min_le_left _ _)
            (pairwise_le_getD hsort (Nat.zero_le _) (lt_trans (Nat.sub_lt (Nat.pos_of_ne_zero hb0) (by norm_num)) hbbk))
      have hbe_le : buckets.getD b 0 ≤ buckets.getD (buckets.length - 1) 0 :=
        pairwise_le_getD hsort (Nat.le_sub_one_of_lt hbbk) hlast
      have hratio_pos : 0 < (infCount * q - (if b = 0 then (0:ℚ) else counts.getD (b - 1) 0)) /
          (counts.getD b 0 - (if b = 0 then (0:ℚ) else counts.getD (b - 1) 0)) :=
        div_pos (by linarith) hcntpos
      have hratio_le : (infCount * q - (if b = 0 then (0:ℚ) else counts.getD (b - 1) 0)) /
          (counts.getD b 0 - (if b = 0 then (0:ℚ) else counts.getD (b - 1) 0)) ≤ 1 :=
        (div_le_one hcntpos).mpr (by linarith)
      refine ⟨_, interpolateBucket_eq _ _ _ _ hdeg (ne_of_gt hcntpos), ?_, ?_⟩
      · refine le_trans hbs_ge (le_add_of_nonneg_right ?_)
        exact mul_nonneg (by linarith) (le_of_lt hratio_pos)
      · have hmul : (buckets.getD b 0 - (if b = 0 then (0:ℚ) else buckets.getD (b - 1) 0)) *
            ((infCount * q - (if b = 0 then (0:ℚ) else counts.getD (b - 1) 0)) /
             (counts.getD b 0 - (if b = 0 then (0:ℚ) else counts.getD (b - 1) 0))) ≤
            (buckets.getD b 0 - (if b = 0 then (0:ℚ) else buckets.getD (b - 1) 0)) * 1 :=
          mul_le_mul_of_nonneg_left hratio_le (by linarith)
        have := hbe_le
        linarith

/-- Witness for C5 (amended) at `q = 3/4`, boundaries `[1, 2]`, counts
`[1, 2]`, total `2`. -/
theorem getPrometheusQuantile_range_bounds_inst :
    ∃ r, getPrometheusQuantile (3/4) [1, 2] [1, 2] 2 = some r ∧
      min (([(1:ℚ), 2]).getD 0 0) 0 ≤ r ∧ r ≤ ([(1:ℚ), 2]).getD (([(1:ℚ), 2]).length - 1) 0 :=
  getPrometheusQuantile_range_bounds (3/4) 2 [1, 2] [1, 2]
    (by norm_num) (by norm_num) (by decide) (by norm_num) (by norm_num) (by norm_num)

/-- Counterexample to C5 as stated: for boundaries `[1, 2]` and the
population `[1/2, 4/5]` (both values in the first bucket), the `q = 1/2`
estimate is `1/2`, strictly below `boundaries[0] = 1`, so the estimate is
not within `[boundaries[0], boundaries[last]]`. -/
theorem getPrometheusQuantile_below_first_boundary_cex :
    getPrometheusQuantile (1/2) [1, 2]
        (([(1:ℚ)/2, 4/5].foldl (addDatum [1, 2]) (mkDataBox [1, 2])).counts)
        (([(1:ℚ)/2, 4/5].foldl (addDatum [1, 2]) (mkDataBox [1, 2])).infCount) = some (1/2) ∧
      ¬ ([(1:ℚ), 2]).getD 0 0 ≤ (1/2 : ℚ) := by
  constructor
  · with_unfolding_all decide
  · norm_num

/-- C4 (amended).  When the rank search selects a bucket `b` outside the
early-return branches and the in-bucket count is zero, the code does not
special-case the degenerate division: the JS expression
`bucketStart + (bucketEnd - bucketStart) * (rank / count)` evaluates a
division by zero and the non-finite result (modelled `none`) is returned,
not `bucketStart`. -/
theorem getPrometheusQuantile_degenerate_none
    (q infCount : ℚ) (buckets counts : List ℚ) (b : ℕ)
    (hfind : findBucketIdx (infCount * q) counts = some b)
    (hdeg : ¬(b = 0 ∧ buckets.getD 0 0 ≤ 0))
    (hzero : counts.getD b 0 - (if b = 0 then 0 else counts.getD (b - 1) 0) = 0) :
    getPrometheusQuantile q buckets counts infCount = none := by
  rw [getPrometheusQuantile, hfind]
  simp only [interpolateBucket]
  rw [if_neg hdeg, if_pos hzero]

/-- Witness for C4 (amended) at `q = 1/3` on the all-zero count list. -/
theorem getPrometheusQuantile_degenerate_none_inst :
    findBucketIdx ((0:ℚ) * (1/3)) [0, 0] = some 0 ∧
    ¬((0:ℕ) = 0 ∧ ([(1:ℚ), 2]).getD 0 0 ≤ 0) ∧
    ([(0:ℚ), 0]).getD 0 0 - (if (0:ℕ) = 0 then 0 else ([(0:ℚ), 0]).getD (0 - 1) 0) = 0 ∧
    getPrometheusQuantile (1/3) [1, 2] [0, 0] 0 = none := by
  have h1 : findBucketIdx ((0:ℚ) * (1/3)) [0, 0] = some 0 := by with_unfolding_all decide
  have h2 : ¬((0:ℕ) = 0 ∧ ([(1:ℚ), 2]).getD 0 0 ≤ 0) := by norm_num
  have h3 : ([(0:ℚ), 0]).getD 0 0 - (if (0:ℕ) = 0 then 0 else ([(0:ℚ), 0]).getD (0 - 1) 0) = 0 := by
    norm_num
  exact ⟨h1, h2, h3, getPrometheusQuantile_degenerate_none (1/3) 0 [1, 2] [0, 0] 0 h1 h2 h3⟩

/-- Counterexample to C4 as stated: on the all-zero count list (empty
population, also the shape of an all-zero rate vector), `q = 1/2` selects
bucket `b = 0` with `countInBucket = 0`, and the result is `none` (the JS
NaN), not `some bucketStart` (`bucketStart = 0` here). -/
theorem getPrometheusQuantile_degenerate_cex :
    getPrometheusQuantile (1/2) [1, 2] [0, 0] 0 ≠ some 0 ∧
    getPrometheusQuantile (1/2) [1, 2] [0, 0] 0 = none := by
  constructor
  · with_unfolding_all decide
  · with_unfolding_all decide

/-- Total count accumulated by a sequence of `addDatum` calls. -/
theorem foldl_addDatum_infCount (buckets : List ℚ) :
    ∀ (values : List ℚ) (box : DataBox),
      (values.foldl (addDatum buckets) box).infCount = box.infCount + (values.length : ℚ) := by
  intro values
  induction values with
  | nil => intro box; simp
  | cons v vs ih =>
    intro box
    rw [List.foldl_cons, ih]
    simp [addDatum]
    ring

/-- When every added value is at or below the first boundary, the first
bucket's cumulative count stays equal to the total count. -/
theorem foldl_addDatum_first_full (buckets : List ℚ) (hb : 1 ≤ buckets.length) :
    ∀ (values : List ℚ) (box : DataBox),
      box.counts.length = buckets.length →
      box.counts.getD 0 0 = box.infCount →
      (∀ v ∈ values, v ≤ buckets.getD 0 0) →
      (values.foldl (addDatum buckets) box).counts.getD 0 0 =
        (values.foldl (addDatum buckets) box).infCount := by
  intro values
  induction values with
  | nil => intro box _ h _; simpa using h
  | cons v vs ih =>
    intro box hlen hfull hall
    rw [List.foldl_cons]
    refine ih (addDatum buckets box v) ?_ ?_ ?_
    · simp [addDatum, List.length_zipWith, hlen]
    · have h0b : 0 < buckets.length := hb
      have h0c : 0 < box.counts.length := hlen ▸ h0b
      simp only [addDatum]
      rw [zipWith_getD_eq _ _ _ 0 h0b h0c, if_pos (hall v (List.mem_cons_self v vs)), hfull]
    · intro w hw
      exact hall w (List.mem_cons_of_mem v hw)

/-- Reduction of `interpolateBucket` in the degenerate first-bucket
branch. -/
theorem interpolateBucket_first (rank : ℚ) (buckets counts : List ℚ)
    (h : buckets.getD 0 0 ≤ 0) :
    interpolateBucket rank buckets counts 0 = some (buckets.getD 0 0) := by
  unfold interpolateBucket
  rw [if_pos ⟨rfl, h⟩]

/-- Reduction of `interpolateBucket` in the first bucket with a positive
first boundary: the interpolation starts from `bucketStart = 0`. -/
theorem interpolateBucket_zero (rank : ℚ) (buckets counts : List ℚ)
    (hble : ¬ buckets.getD 0 0 ≤ 0) (hcnt : counts.getD 0 0 ≠ 0) :
    interpolateBucket rank buckets counts 0 =
      some (buckets.getD 0 0 * (rank / counts.getD 0 0)) := by
  simp only [List.getD_eq_getElem?_getD] at hble hcnt
  simp [interpolateBucket, hble, hcnt, List.getD_eq_getElem?_getD]

/-- Reduction of `getPrometheusQuantile` once the rank search result is
known. -/
theorem getPrometheusQuantile_eq_interpolate {q infCount : ℚ} {buckets counts : List ℚ}
    {b : ℕ} (hfind : findBucketIdx (infCount * q) counts = some b) :
    getPrometheusQuantile q buckets counts infCount =
      interpolateBucket (infCount * q) buckets counts b := by
  rw [getPrometheusQuantile, hfind]

/-- C6 (amended).  For `0 < q < 1` and a non-empty population whose
values all lie at or below the smallest boundary, the bucket quantile
estimate is `boundaries[0]` only when `boundaries[0] ≤ 0`; for a positive
first boundary it interpolates from `bucketStart = 0` and returns
`boundaries[0] * q`, not `boundaries[0]`. -/
theorem getPrometheusQuantile_all_below_first
    (q : ℚ) (buckets values : List ℚ)
    (hq0 : 0 < q) (hq1 : q < 1)
    (hsort : List.Pairwise (· < ·) buckets)
    (hlen2 : 2 ≤ buckets.length)
    (hvals : values ≠ [])
    (hall : ∀ v ∈ values, v ≤ buckets.getD 0 0) :
    getPrometheusQuantile q buckets
        ((values.foldl (addDatum buckets) (mkDataBox buckets)).counts)
        ((values.foldl (addDatum buckets) (mkDataBox buckets)).infCount) =
      some (if buckets.getD 0 0 ≤ 0 then buckets.getD 0 0 else buckets.getD 0 0 * q) := by
  have hb1 : 1 ≤ buckets.length := le_trans (by norm_num) hlen2
  have hinf : (values.foldl (addDatum buckets) (mkDataBox buckets)).infCount =
      (values.length : ℚ) := by
    rw [foldl_addDatum_infCount]
    simp [mkDataBox]
  have hpos : 0 < (values.foldl (addDatum buckets) (mkDataBox buckets)).infCount := by
    rw [hinf]
    exact_mod_cast Nat.pos_of_ne_zero (fun h => hvals (List.length_eq_zero.mp h))
  have hfull : (values.foldl (addDatum buckets) (mkDataBox buckets)).counts.getD 0 0 =
      (values.foldl (addDatum buckets) (mkDataBox buckets)).infCount := by
    refine foldl_addDatum_first_full buckets hb1 values (mkDataBox buckets) ?_ ?_ hall
    · simp [mkDataBox]
    · simp [mkDataBox, getD_map_const_zero]
  have hclen : (values.foldl (addDatum buckets) (mkDataBox buckets)).counts.length =
      buckets.length :=
    (boxInv_foldl hsort values _ (boxInv_mkDataBox buckets)).1
  have hrank : (values.foldl (addDatum buckets) (mkDataBox buckets)).infCount * q ≤
      (values.foldl (addDatum buckets) (mkDataBox buckets)).counts.getD 0 0 := by
    rw [hfull]
    nlinarith
  have hfind : findBucketIdx
      ((values.foldl (addDatum buckets) (mkDataBox buckets)).infCount * q)
      (values.foldl (addDatum buckets) (mkDataBox buckets)).counts = some 0 :=
    findBucketIdx_eq_some (hclen ▸ hb1) hrank (fun i hi => absurd hi (Nat.not_lt_zero i))
  rw [getPrometheusQuantile_eq_interpolate hfind]
  by_cases hble : buckets.getD 0 0 ≤ 0
  · rw [interpolateBucket_first _ _ _ hble, if_pos hble]
  · have hcnt : (values.foldl (addDatum buckets) (mkDataBox buckets)).counts.getD 0 0 ≠ 0 := by
      rw [hfull]
      exact ne_of_gt hpos
    rw [interpolateBucket_zero _ _ _ hble hcnt, if_neg hble, hfull]
    rw [mul_comm (values.foldl (addDatum buckets) (mkDataBox buckets)).infCount q, mul_div_assoc,
      div_self (ne_of_gt hpos), mul_one]

/-- Witness for C6 (amended): boundaries `[1, 2]`, population
`[1/2, 4/5]`, `q = 1/3`; the estimate is `1 * (1/3)`. -/
theorem getPrometheusQuantile_all_below_first_inst :
    (0:ℚ) < 1/3 ∧ ([(1:ℚ)/2, 4/5] : List ℚ) ≠ [] ∧
    (∀ v ∈ [(1:ℚ)/2, 4/5], v ≤ ([(1:ℚ), 2]).getD 0 0) ∧
    getPrometheusQuantile (1/3) [1, 2]
        (([(1:ℚ)/2, 4/5].foldl (addDatum [1, 2]) (mkDataBox [1, 2])).counts)
        (([(1:ℚ)/2, 4/5].foldl (addDatum [1, 2]) (mkDataBox [1, 2])).infCount) =
      some (if ([(1:ℚ), 2]).getD 0 0 ≤ 0 then ([(1:ℚ), 2]).getD 0 0
            else ([(1:ℚ), 2]).getD 0 0 * (1/3)) := by
  refine ⟨by norm_num, List.cons_ne_nil _ _, ?_, ?_⟩
  · intro v hv
    rcases List.mem_cons.mp hv with rfl | hv
    · norm_num
    · rcases List.mem_cons.mp hv with rfl | hv
      · norm_num
      · simp at hv
  · refine getPrometheusQuantile_all_below_first (1/3) [1, 2] [1/2, 4/5]
      (by norm_num) (by norm_num) (by decide) (by norm_num) (List.cons_ne_nil _ _) ?_
    intro v hv
    rcases List.mem_cons.mp hv with rfl | hv
    · norm_num
    · rcases List.mem_cons.mp hv with rfl | hv
      · norm_num
      · simp at hv

/-- Counterexample to C6 as stated: boundaries `[1, 2]`, population
`[1/2, 4/5]` entirely below the first boundary, `q = 1/4`: the estimate
is `1/4`, not `boundaries[0] = 1`. -/
theorem getPrometheusQuantile_first_bucket_cex :
    getPrometheusQuantile (1/4) [1, 2]
        (([(1:ℚ)/2, 4/5].foldl (addDatum [1, 2]) (mkDataBox [1, 2])).counts)
        (([(1:ℚ)/2, 4/5].foldl (addDatum [1, 2]) (mkDataBox [1, 2])).infCount) = some (1/4) ∧
    (1/4 : ℚ) ≠ ([(1:ℚ), 2]).getD 0 0 := by
  constructor
  · with_unfolding_all decide
  · norm_num

/-- C3.  For every `0 < q < 1` and non-empty already-sorted value list,
`getRealQuantile` returns `sortedValues[max(0, floor(q * n) - 1)]`; in
particular the exact P50 of the nine README raw values (scaled from
milliseconds to seconds) is `0.130`. -/
theorem getRealQuantile_nearest_rank :
    (∀ (q : ℚ) (data : List ℚ), 0 < q → q < 1 → data ≠ [] → List.Sorted (· ≤ ·) data →
        getRealQuantile q data =
          data.getD (max (Int.floor (q * (data.length : ℚ)) - 1) 0).toNat 0) ∧
    getRealQuantile (1/2)
        [336/1000, 42/1000, 73/1000, 67/1000, 130/1000, 157/1000, 174/1000, 153/1000, 138/1000]
      = 130/1000 := by
  constructor
  · intro q data hq0 hq1 hne hsorted
    show (List.insertionSort (· ≤ ·) data).getD
        (max (Int.floor (q * (data.length : ℚ)) - 1) 0).toNat 0 =
      data.getD (max (Int.floor (q * (data.length : ℚ)) - 1) 0).toNat 0
    rw [List.Sorted.insertionSort_eq hsorted]
  · with_unfolding_all decide

/-- Witness for the universal part of C3 on the sorted list `[1, 2, 3]`
at `q = 1/2`. -/
theorem getRealQuantile_nearest_rank_inst :
    List.Sorted (· ≤ ·) [(1:ℚ), 2, 3] ∧
    getRealQuantile (1/2) [(1:ℚ), 2, 3] =
      ([(1:ℚ), 2, 3]).getD
        (max (Int.floor ((1/2 : ℚ) * ((([(1:ℚ), 2, 3]).length : ℕ) : ℚ)) - 1) 0).toNat 0 :=
  ⟨by decide, getRealQuantile_nearest_rank.1 (1/2) [1, 2, 3] (by norm_num) (by norm_num)
    (List.cons_ne_nil _ _) (by decide)⟩

/-- C2.  For at least two snapshots sorted by non-decreasing timestamp,
`calculateRates` yields, for every boundary and for `+Inf`, the rate
`(lastCount - firstCount) * (extrapolatedInterval / sampledInterval)`
divided by the window length in seconds (300); and on the spec's concrete
scenario (two snapshots at t=15s and t=30s in a 300s window, a bucket
count rising 1 to 2, `+Inf` rising 7 to 14) the extrapolated interval is
37500 ms = 37.5 s and the first bucket's rate is
`(2 - 1) * (37.5 / 15) / 300 = 1/120`. -/
theorem calculateRates_formula :
    (∀ (buckets : List ℚ) (sampleEnd : ℚ) (samples : List Sample),
        2 ≤ samples.length →
        List.Chain' (fun a b => a.time ≤ b.time) samples →
        calculateRates buckets sampleEnd samples =
          some ((List.range buckets.length).map (fun i =>
              ((samples.getLastD ⟨0, [], 0⟩).counts.getD i 0 -
               (samples.headD ⟨0, [], 0⟩).counts.getD i 0) *
                (extrapolateToInterval sampleEnd samples /
                 ((samples.getLastD ⟨0, [], 0⟩).time - (samples.headD ⟨0, [], 0⟩).time)) / 300),
            ((samples.getLastD ⟨0, [], 0⟩).infCount - (samples.headD ⟨0, [], 0⟩).infCount) *
              (extrapolateToInterval sampleEnd samples /
               ((samples.getLastD ⟨0, [], 0⟩).time - (samples.headD ⟨0, [], 0⟩).time)) / 300)) ∧
    (extrapolateToInterval 300000 [⟨15000, [1, 2, 3, 4], 7⟩, ⟨30000, [2, 4, 6, 8], 14⟩] = 37500 ∧
     calculateRates [1/4, 1/2, 1, 5/2] 300000
        [⟨15000, [1, 2, 3, 4], 7⟩, ⟨30000, [2, 4, 6, 8], 14⟩] =
        some ([1/120, 1/60, 1/40, 1/30], 7/120)) := by
  refine ⟨?_, ?_, ?_⟩
  · intro buckets sampleEnd samples hlen hchain
    simp only [calculateRates]
    rw [if_neg (not_lt.mpr hlen)]
    norm_num [VECTOR_SELECTOR]
  · norm_num [extrapolateToInterval, VECTOR_SELECTOR]
  · norm_num [calculateRates, extrapolateToInterval, VECTOR_SELECTOR, List.range_succ]

/-- Witness for the universal part of C2: two snapshots at t=0s and
t=150s of a 300s window ending at t=300s, one bucket whose count rises
0 to 5. -/
theorem calculateRates_formula_inst :
    2 ≤ ([⟨0, [0], 0⟩, ⟨150000, [5], 5⟩] : List Sample).length ∧
    List.Chain' (fun a b => a.time ≤ b.time) ([⟨0, [0], 0⟩, ⟨150000, [5], 5⟩] : List Sample) ∧
    calculateRates [1] 300000 [⟨0, [0], 0⟩, ⟨150000, [5], 5⟩] = some ([1/30], 1/30) := by
  refine ⟨by norm_num, by norm_num [List.chain'_cons, List.chain'_singleton], ?_⟩
  exact (calculateRates_formula.1 [1] 300000 [⟨0, [0], 0⟩, ⟨150000, [5], 5⟩]
      (by norm_num) (by norm_num [List.chain'_cons, List.chain'_singleton])).trans
    (by norm_num [extrapolateToInterval, VECTOR_SELECTOR, List.range_succ])

/-- A `getResult` call on a box holding no data fails: the first
`getRealQuantile` call's non-empty-population assertion throws. -/
theorem getResult_empty (buckets : List ℚ) (box : DataBox) (h : box.data.length = 0) :
    getResult buckets box = none := by
  rw [getResult]
  show getResultGo buckets box (999/1000 :: [99/100, 98/100, 95/100, 75/100, 50/100, 25/100]) = none
  simp [getResultGo, getRealQuantileChecked, h]

/-- Adding one datum grows the raw-data buffer by one. -/
theorem addDatum_data_length (buckets : List ℚ) (box : DataBox) (v : ℚ) :
    (addDatum buckets box v).data.length = box.data.length + 1 := by
  simp [addDatum]

/-- C7 (amended).  A quantile request on a chunk with zero samples is not
skipped: it fails the `must have data` assertion.  Consequently, whenever
the input length is an exact multiple of the (positive) chunk size, the
final box handed to the end-of-stream `processBox` call is empty and the
run aborts instead of continuing to completion. -/
theorem runChunked_empty_final_aborts (buckets : List ℚ) (chunkSize : ℕ) (input : List ℚ)
    (hcs : 1 ≤ chunkSize) (hdiv : input.length % chunkSize = 0) :
    runChunked buckets chunkSize input = none := by
  rw [runChunked]
  have key : ∀ (rest : List ℚ) (box : DataBox) (acc : List (List (ℚ × Option ℚ))),
      box.data.length < chunkSize → (box.data.length + rest.length) % chunkSize = 0 →
      processChunks buckets chunkSize rest box acc = none := by
    intro rest
    induction rest with
    | nil =>
      intro box acc hlt hmod
      have h0 : box.data.length = 0 := by
        simpa [Nat.mod_eq_of_lt hlt] using hmod
      simp only [processChunks]
      rw [getResult_empty buckets box h0]
    | cons v vs ih =>
      intro box acc hlt hmod
      simp only [processChunks]
      by_cases hfull : chunkSize ≤ (addDatum buckets box v).data.length
      · rw [if_pos hfull]
        have hlen2 : (addDatum buckets box v).data.length = chunkSize := by
          rw [addDatum_data_length] at hfull ⊢
          omega
        cases hres : getResult buckets (addDatum buckets box v) with
        | none => rfl
        | some r =>
          refine ih (mkDataBox buckets) (acc ++ [r]) (by simpa [mkDataBox] using hcs) ?_
          have harr : box.data.length + (v :: vs).length = chunkSize + vs.length := by
            rw [addDatum_data_length] at hlen2
            simp only [List.length_cons]
            omega
          rw [harr] at hmod
          rw [Nat.add_mod_left] at hmod
          simpa [mkDataBox] using hmod
      · rw [if_neg hfull]
        refine ih (addDatum buckets box v) acc (Nat.lt_of_not_le hfull) ?_
        rw [addDatum_data_length]
        have harr : box.data.length + 1 + vs.length = box.data.length + (v :: vs).length := by
          simp only [List.length_cons]
          omega
        rw [harr]
        exact hmod
  exact key input (mkDataBox buckets) [] (by simpa [mkDataBox] using hcs)
    (by simpa [mkDataBox] using hdiv)

/-- Witness for C7 (amended): chunk size 2 and four input values; the run
aborts on the trailing empty box. -/
theorem runChunked_empty_final_aborts_inst :
    1 ≤ 2 ∧ ([(1:ℚ), 2, 3, 4]).length % 2 = 0 ∧ runChunked [5, 6] 2 [1, 2, 3, 4] = none :=
  ⟨by norm_num, by norm_num,
    runChunked_empty_final_aborts [5, 6] 2 [1, 2, 3, 4] (by norm_num) (by norm_num)⟩

/-- Counterexample to C7 as stated: boundaries `[1, 2]`, chunk size 1,
one input value.  The single value fills and rotates the first chunk, so
the end-of-stream `processBox` runs on a zero-sample chunk and the run
aborts (`none`) instead of continuing to completion. -/
theorem runChunked_empty_final_cex : runChunked [1, 2] 1 [1] = none := by
  with_unfolding_all decide

/-- C8 (amended).  Whenever pushing a snapshot makes the sequence exceed
the window capacity, the oldest snapshot is evicted first and the rate
computation runs afterwards over the already-shortened sequence, so the
evicted snapshot does not participate in that rate computation. -/
theorem pushSample_evicts_before_rates (buckets : List ℚ) (samples : List Sample) (s : Sample)
    (hcap : (300000 : ℚ) / SAMPLE_FREQ < (((samples ++ [s]).length : ℕ) : ℚ)) :
    (pushSample buckets samples s).1 = (samples ++ [s]).tail ∧
    (pushSample buckets samples s).2 = calculateRates buckets s.time ((samples ++ [s]).tail) := by
  simp only [pushSample]
  rw [if_pos hcap]
  exact ⟨rfl, rfl⟩

/-- Witness for C8 (amended) on 20 retained snapshots plus one pushed. -/
theorem pushSample_evicts_before_rates_inst :
    (300000 : ℚ) / SAMPLE_FREQ <
      (((sampleWindow20 ++ [overflowSample]).length : ℕ) : ℚ) ∧
    (pushSample [] sampleWindow20 overflowSample).1 = (sampleWindow20 ++ [overflowSample]).tail ∧
    (pushSample [] sampleWindow20 overflowSample).2 =
      calculateRates [] overflowSample.time ((sampleWindow20 ++ [overflowSample]).tail) := by
  have hcap : (300000 : ℚ) / SAMPLE_FREQ <
      (((sampleWindow20 ++ [overflowSample]).length : ℕ) : ℚ) := by
    have hlen : (sampleWindow20 ++ [overflowSample]).length = 21 := by
      rw [List.length_append, sampleWindow20, List.length_map, List.length_range]
      rfl
    rw [hlen]
    norm_num [SAMPLE_FREQ]
  obtain ⟨h1, h2⟩ := pushSample_evicts_before_rates [] sampleWindow20 overflowSample hcap
  exact ⟨hcap, h1, h2⟩

/-- Counterexample to C8 as stated: with 21 snapshots (the first with
bucket count 100, the rest rising 1 to 20), the rates produced on
eviction differ from `calculateRates` over the pre-eviction sequence, so
the evicted snapshot did not participate: after the shift the bucket rate
is `(20-1)*(300000/285000)/300 = 1/15`, while the pre-eviction sequence
gives `(20-100)*1/300 = -4/15`. -/
theorem pushSample_prior_rates_cex :
    (pushSample [1]
        (⟨15000, [100], 100⟩ ::
          (List.range 19).map (fun (i : ℕ) => ⟨15000 * ((i : ℚ) + 2), [(i : ℚ) + 1], (i : ℚ) + 1⟩))
        ⟨315000, [20], 20⟩).2 ≠
      calculateRates [1] 315000
        ((⟨15000, [100], 100⟩ ::
          (List.range 19).map (fun (i : ℕ) => ⟨15000 * ((i : ℚ) + 2), [(i : ℚ) + 1], (i : ℚ) + 1⟩)) ++
          [⟨315000, [20], 20⟩]) := by
  norm_num [pushSample, calculateRates, extrapolateToInterval, VECTOR_SELECTOR, SAMPLE_FREQ,
    List.range_succ]
